import Mathlib

/-!
# Verification of the xtask packaging pipeline (`src/xtask/src/main.rs`)

A shallow embedding of the deterministic versioning and packaging pipeline of
the Meta-Hybrid-Mount repository.  Rust strings (sequences of Unicode scalar
values) are modelled as `List Char`; raw byte streams (subprocess stdout,
on-disk file bytes) are modelled as `List Nat` with each element a byte.
Fallible Rust code returning `anyhow::Result` is modelled with `Except Unit`.
-/

deriving instance DecidableEq for Except

/-- A Rust `String` / `&str`: a sequence of Unicode scalar values. -/
abbrev RStr := List Char

/-- Convenience conversion from a Lean string literal to the model type. -/
def rstr (s : String) : RStr := s.data

/-- A path relative to some root, as a list of path components. -/
abbrev RPath := List RStr

/-- Unicode `White_Space` code points, as used by Rust's `char::is_whitespace`
(and hence `str::trim`). -/
def rustIsWhitespace (c : Char) : Bool :=
  let n := c.toNat
  (0x9 ≤ n && n ≤ 0xD) || n == 0x20 || n == 0x85 || n == 0xA0 || n == 0x1680 ||
  (0x2000 ≤ n && n ≤ 0x200A) || n == 0x2028 || n == 0x2029 || n == 0x202F ||
  n == 0x205F || n == 0x3000

/-- Rust `str::trim`: remove leading and trailing whitespace. -/
def trim (s : RStr) : RStr :=
  (((s.dropWhile rustIsWhitespace).reverse).dropWhile rustIsWhitespace).reverse

/-- Rust `str::starts_with` for a literal pattern. -/
def startsWith : RStr → RStr → Bool
  | [], _ => true
  | _ :: _, [] => false
  | p :: ps, c :: cs => decide (p = c) && startsWith ps cs

/-- Rust `str::split(sep)` for a `char` separator: the list of pieces between
occurrences of `sep`.  Always returns a non-empty list; `""` yields `[""]`. -/
def splitChar (sep : Char) : RStr → List RStr
  | [] => [[]]
  | c :: rest =>
    if c = sep then [] :: splitChar sep rest
    else
      match splitChar sep rest with
      | [] => [[c]]
      | p :: ps => (c :: p) :: ps

/-- Strip a single trailing carriage return, as Rust `str::lines` does on each
line that was terminated by `"\n"`. -/
def stripCR (l : RStr) : RStr :=
  if l.getLast? = some '\r' then l.dropLast else l

/-- Helper for `rustLines`: all pieces but the last have one trailing `'\r'`
stripped; a final empty piece (the text ended with `'\n'`) yields no line, and
a final non-empty piece is kept verbatim (no `'\r'` stripping, matching Rust's
`split_inclusive`-based implementation of `str::lines`). -/
def processParts : List RStr → List RStr
  | [] => []
  | [last] => if last = [] then [] else [last]
  | p :: ps => stripCR p :: processParts ps

/-- Rust `str::lines`. -/
def rustLines (s : RStr) : List RStr :=
  processParts (splitChar '\n' s)

/-- Rust `Vec::join("\n")` / `slice::join` with a single-character separator. -/
def joinSep (sep : Char) : List RStr → RStr
  | [] => []
  | [l] => l
  | l :: ls => l ++ sep :: joinSep sep ls

section ModelSanity

example : rustLines (rstr "a\nb\n") = [rstr "a", rstr "b"] := by decide
example : rustLines (rstr "a\r\nb") = [rstr "a", rstr "b"] := by decide
example : rustLines (rstr "a\r") = [rstr "a\r"] := by decide
example : rustLines (rstr "") = [] := by decide
example : rustLines (rstr "\n") = [rstr ""] := by decide
example : rustLines (rstr "a\n\nb") = [rstr "a", rstr "", rstr "b"] := by decide
example : splitChar '"' (rstr "version = \"1.0\"") =
    [rstr "version = ", rstr "1.0", rstr ""] := by decide
example : trim (rstr "  ver \t") = rstr "ver" := by decide

end ModelSanity

/-! ## UTF-8

`String::from_utf8` (used on the stdout of the version-control query) and
`fs::read_to_string` (used on the fallback config file) decode raw bytes and
fail on invalid UTF-8.  `utf8Decode` is a strict UTF-8 decoder over byte
lists: it rejects stray continuation bytes, overlong encodings, surrogate
code points and values above `U+10FFFF`, exactly as Rust does. -/

/-- Is `b` a UTF-8 continuation byte (`0x80 ≤ b < 0xC0`)? -/
def contOk (b : Nat) : Bool := 0x80 ≤ b && b < 0xC0

/-- The payload bits of a continuation byte. -/
def contVal (b : Nat) : Nat := b - 0x80

/-- Fuelled strict UTF-8 decoder; with `fuel ≥` the length of the input it
never runs out of fuel, since every decoded character consumes at least one
byte. -/
def utf8DecodeAux : Nat → List Nat → Option RStr
  | _, [] => some []
  | 0, _ :: _ => none
  | fuel + 1, b :: rest =>
    if b < 0x80 then
      (utf8DecodeAux fuel rest).map (fun s => Char.ofNat b :: s)
    else if b < 0xC2 then none
    else if b < 0xE0 then
      match rest with
      | b1 :: rest2 =>
        if contOk b1 then
          (utf8DecodeAux fuel rest2).map
            (fun s => Char.ofNat ((b - 0xC0) * 64 + contVal b1) :: s)
        else none
      | [] => none
    else if b < 0xF0 then
      match rest with
      | b1 :: b2 :: rest2 =>
        if contOk b1 && contOk b2 then
          let n := (b - 0xE0) * 4096 + contVal b1 * 64 + contVal b2
          if 0x800 ≤ n && !(0xD800 ≤ n && n < 0xE000) then
            (utf8DecodeAux fuel rest2).map (fun s => Char.ofNat n :: s)
          else none
        else none
      | _ => none
    else if b < 0xF5 then
      match rest with
      | b1 :: b2 :: b3 :: rest2 =>
        if contOk b1 && contOk b2 && contOk b3 then
          let n := (b - 0xF0) * 0x40000 + contVal b1 * 4096 + contVal b2 * 64 + contVal b3
          if 0x10000 ≤ n && n ≤ 0x10FFFF then
            (utf8DecodeAux fuel rest2).map (fun s => Char.ofNat n :: s)
          else none
        else none
      | _ => none
    else none

/-- Strict UTF-8 decoding of a byte list, as performed by Rust's
`String::from_utf8` and `fs::read_to_string`. -/
def utf8Decode (bs : List Nat) : Option RStr := utf8DecodeAux bs.length bs

example : utf8Decode [0x76, 0x31] = some (rstr "v1") := by decide
example : utf8Decode [0xFF] = none := by decide
example : utf8Decode [0xC3, 0xA9] = some (rstr "é") := by decide
example : utf8Decode [0xC0, 0xAF] = none := by decide

/-! ## `DefaultHasher` (SipHash-1-3)

`update_module_prop` derives the version code with
`std::collections::hash_map::DefaultHasher`, which is SipHash-1-3 with both
keys zero.  Hashing a `&str` feeds the hasher the string's UTF-8 bytes
followed by a single `0xFF` byte.  64-bit machine arithmetic is modelled on
`Nat` with explicit reduction modulo `2 ^ 64`. -/

/-- Addition modulo `2 ^ 64`. -/
def add64 (a b : Nat) : Nat := (a + b) % 2 ^ 64

/-- Bitwise xor (stays below `2 ^ 64` for arguments below `2 ^ 64`). -/
def xor64 (a b : Nat) : Nat := a ^^^ b

/-- Left rotation of a 64-bit word. -/
def rotl64 (a r : Nat) : Nat := ((a <<< r) ||| (a >>> (64 - r))) % 2 ^ 64

/-- The four 64-bit words of SipHash state. -/
structure SipState where
  v0 : Nat
  v1 : Nat
  v2 : Nat
  v3 : Nat

/-- One SipHash round. -/
def sipRound (s : SipState) : SipState :=
  let v0 := add64 s.v0 s.v1
  let v1 := rotl64 s.v1 13
  let v1 := xor64 v1 v0
  let v0 := rotl64 v0 32
  let v2 := add64 s.v2 s.v3
  let v3 := rotl64 s.v3 16
  let v3 := xor64 v3 v2
  let v0 := add64 v0 v3
  let v3 := rotl64 v3 21
  let v3 := xor64 v3 v0
  let v2 := add64 v2 v1
  let v1 := rotl64 v1 17
  let v1 := xor64 v1 v2
  let v2 := rotl64 v2 32
  ⟨v0, v1, v2, v3⟩

/-- Little-endian value of a byte list (first byte least significant). -/
def leWord (bs : List Nat) : Nat := bs.foldr (fun b acc => b + 256 * acc) 0

/-- Absorb one 64-bit message word (SipHash-1-3: one round per word). -/
def sipCompress (s : SipState) (m : Nat) : SipState :=
  let s := { s with v3 := xor64 s.v3 m }
  let s := sipRound s
  { s with v0 := xor64 s.v0 m }

/-- Absorb all full 8-byte blocks, returning the state and the tail. -/
def sipBlocks : SipState → List Nat → SipState × List Nat
  | s, b0 :: b1 :: b2 :: b3 :: b4 :: b5 :: b6 :: b7 :: rest =>
    sipBlocks (sipCompress s (leWord [b0, b1, b2, b3, b4, b5, b6, b7])) rest
  | s, rest => (s, rest)

/-- SipHash-1-3 with key `(0, 0)` of a byte stream, as computed by
`DefaultHasher::finish` after writing exactly these bytes. -/
def siphash13 (bytes : List Nat) : Nat :=
  let s0 : SipState :=
    ⟨0x736f6d6570736575, 0x646f72616e646f6d, 0x6c7967656e657261, 0x7465646279746573⟩
  let sr := sipBlocks s0 bytes
  let b := ((bytes.length % 256) * 2 ^ 56 + leWord sr.2) % 2 ^ 64
  let s := sipCompress sr.1 b
  let s := { s with v2 := xor64 s.v2 0xff }
  let s := sipRound (sipRound (sipRound s))
  xor64 (xor64 s.v0 s.v1) (xor64 s.v2 s.v3)

/-- The UTF-8 encoding of one Unicode scalar value. -/
def utf8Char (c : Char) : List Nat :=
  let n := c.toNat
  if n < 0x80 then [n]
  else if n < 0x800 then [0xC0 ||| (n >>> 6), 0x80 ||| (n &&& 0x3F)]
  else if n < 0x10000 then
    [0xE0 ||| (n >>> 12), 0x80 ||| ((n >>> 6) &&& 0x3F), 0x80 ||| (n &&& 0x3F)]
  else
    [0xF0 ||| (n >>> 18), 0x80 ||| ((n >>> 12) &&& 0x3F),
     0x80 ||| ((n >>> 6) &&& 0x3F), 0x80 ||| (n &&& 0x3F)]

/-- The UTF-8 encoding of a string. -/
def utf8Encode (s : RStr) : List Nat := s.foldr (fun c acc => utf8Char c ++ acc) []

/-- `DefaultHasher` hash of a Rust string: SipHash-1-3 of its UTF-8 bytes
followed by the `0xFF` terminator that `Hash for str` writes. -/
def defaultHashStr (s : RStr) : Nat := siphash13 (utf8Encode s ++ [0xff])

/-! ## Decimal formatting (`u32::to_string`) -/

/-- The ASCII digit character for `d < 10`. -/
def digitChar (d : Nat) : Char := Char.ofNat (48 + d)

/-- Fuelled most-significant-first digit expansion; `fuel ≥ n` suffices. -/
def natDigitsAux : Nat → Nat → List Char
  | _, 0 => []
  | 0, _ + 1 => []
  | fuel + 1, n + 1 => natDigitsAux fuel ((n + 1) / 10) ++ [digitChar ((n + 1) % 10)]

/-- Decimal representation of a natural number, as `u32::to_string`. -/
def natToRStr (n : Nat) : RStr :=
  if n = 0 then ['0'] else natDigitsAux n n

example : natToRStr 0 = rstr "0" := by decide
example : natToRStr 100 = rstr "100" := by decide
example : natToRStr 99999 = rstr "99999" := by decide

/-! ## `update_module_prop` (src/xtask/src/main.rs, lines 260-288)

The manifest patcher.  The process environment is represented by the value of
`META_HYBRID_CODE` (`none` when `env::var` fails, i.e. the variable is unset
or not Unicode); the manifest file is represented by `Option RStr` (`none`
when `path.exists()` is false).  The returned `Option RStr` is the file state
after the call. -/

/-- The `versionCode` value: the `META_HYBRID_CODE` environment value verbatim
when present, otherwise `(DefaultHasher(version) % 100000) as u32` formatted
in decimal. -/
def versionCodeOf (envCode : Option RStr) (version : RStr) : RStr :=
  match envCode with
  | some envCode => envCode
  | none => natToRStr (defaultHashStr version % 100000)

/-- The per-line rewrite of the manifest loop: a line starting with
`version=` is replaced by `version=<version>`, a line starting with
`versionCode=` by `versionCode=<code>`, and any other line is kept. -/
def patchLine (version code line : RStr) : RStr :=
  if startsWith (rstr "version=") line then rstr "version=" ++ version
  else if startsWith (rstr "versionCode=") line then rstr "versionCode=" ++ code
  else line

/-- The content written back by `update_module_prop` for an existing manifest:
each of `content.lines()` is rewritten and the results are joined with
`"\n"`. -/
def update_module_prop_content (envCode : Option RStr) (version content : RStr) : RStr :=
  joinSep '\n' ((rustLines content).map (patchLine version (versionCodeOf envCode version)))

/-- `update_module_prop`: a missing manifest is a no-op success; an existing
one is rewritten in place.  (I/O failures of `read_to_string`/`write` on an
existing file are outside this model.) -/
def update_module_prop (envCode : Option RStr) (version : RStr) (file : Option RStr) :
    Except Unit (Option RStr) :=
  match file with
  | none => Except.ok none
  | some content => Except.ok (some (update_module_prop_content envCode version content))

example :
    update_module_prop_content (some (rstr "42")) (rstr "1.2.3")
      (rstr "id=meta\nversion=v0\nversionCode=1\n# comment") =
    rstr "id=meta\nversion=1.2.3\nversionCode=42\n# comment" := by decide

/-! ## `get_version` (src/xtask/src/main.rs, lines 232-258)

The version resolver.  Its world: the value of `META_HYBRID_VERSION` (`none`
when unset or not Unicode), the outcome of `git describe --tags --always
--dirty` (`none` when spawning fails, otherwise the exit-status success flag
and the raw stdout bytes), and the content of `module/config.toml` as raw
bytes (`none` when the file does not exist). -/

/-- The process/filesystem state observed by `get_version`. -/
structure World where
  envVersion : Option RStr
  gitDescribe : Option (Bool × List Nat)
  configToml : Option (List Nat)

/-- `line.split('"').nth(1)`: the text between the first quote and the second
quote (or the end) of the line, when the line contains a quote at all. -/
def extractQuoted (line : RStr) : Option RStr := (splitChar '"' line)[1]?

/-- The `for line in content.lines()` scan of `get_version`: the first line
whose trimmed content starts with `version` *and* yields a quoted value
produces that value with `-dev` appended; lines failing either test are
skipped. -/
def scanConfigLines : List RStr → Option RStr
  | [] => none
  | l :: ls =>
    if startsWith (rstr "version") (trim l) then
      match extractQuoted l with
      | some v => some (v ++ rstr "-dev")
      | none => scanConfigLines ls
    else scanConfigLines ls

/-- The config-file stage of `get_version`: a missing file falls through to
the sentinel; an existing file is read with `fs::read_to_string`, whose `?`
aborts on invalid UTF-8; otherwise the line scan applies and the sentinel is
returned when no line matches. -/
def versionFromConfig (cfg : Option (List Nat)) : Except Unit RStr :=
  match cfg with
  | none => Except.ok (rstr "v0.0.0-unknown")
  | some bytes =>
    match utf8Decode bytes with
    | none => Except.error ()
    | some content =>
      match scanConfigLines (rustLines content) with
      | some v => Except.ok v
      | none => Except.ok (rstr "v0.0.0-unknown")

/-- The git stage of `get_version`: only a successfully spawned query with a
zero exit status produces a version (its stdout decoded by
`String::from_utf8`, whose `?` aborts on invalid bytes, then trimmed);
anything else falls through to the config stage. -/
def versionFromGit (git : Option (Bool × List Nat)) (cfg : Option (List Nat)) :
    Except Unit RStr :=
  match git with
  | some (true, out) =>
    match utf8Decode out with
    | some s => Except.ok (trim s)
    | none => Except.error ()
  | _ => versionFromConfig cfg

/-- `get_version`: the environment override wins when present and non-empty;
otherwise the git stage, then the config stage, then the sentinel. -/
def get_version (w : World) : Except Unit RStr :=
  match w.envVersion with
  | some v => if v = [] then versionFromGit w.gitDescribe w.configToml else Except.ok v
  | none => versionFromGit w.gitDescribe w.configToml

example : get_version ⟨some (rstr "v9"), some (true, [0x76, 0x31]), none⟩ =
    Except.ok (rstr "v9") := by decide
example : get_version ⟨none, some (true, [0x20, 0x76, 0x31, 0x0A]), none⟩ =
    Except.ok (rstr "v1") := by decide
example : get_version ⟨none, some (false, [0x76]), none⟩ =
    Except.ok (rstr "v0.0.0-unknown") := by decide
example :
    get_version ⟨none, none,
      some (utf8Encode (rstr "# cfg\nversion = \"0.2\"\n"))⟩ =
    Except.ok (rstr "0.2-dev") := by decide

/-! ## Spec-side version resolution

The spec describes version resolution over *textual* sources.  `TextWorld`
carries the environment override, the describe query outcome with its stdout
as a string, and the config file content as a string.  `get_version_spec` is
written from the spec's words: first success wins among (1) the non-empty
environment override verbatim, (2) the trimmed stdout of a zero-exit describe
query, (3) the quoted value of the first `version` line of the config file
with `-dev` appended, (4) the sentinel. -/

/-- The world as the spec describes it: all sources textual. -/
structure TextWorld where
  envVersion : Option RStr
  gitDescribe : Option (Bool × RStr)
  configToml : Option RStr

/-- Spec source (3): scan the config file for the first line whose trimmed
content starts with `version` and which yields a quoted value; append `-dev`.
Otherwise (or when the file is absent) spec source (4): the sentinel. -/
def specConfigResolve : Option RStr → RStr
  | none => rstr "v0.0.0-unknown"
  | some content =>
    match (rustLines content).find?
        (fun l => startsWith (rstr "version") (trim l) && (extractQuoted l).isSome) with
    | some l => (extractQuoted l).getD [] ++ rstr "-dev"
    | none => rstr "v0.0.0-unknown"

/-- Spec source (2): the trimmed stdout of the describe query when it exits
with zero status; otherwise fall through to the config file. -/
def specGitResolve (t : TextWorld) : RStr :=
  match t.gitDescribe with
  | some (true, out) => trim out
  | _ => specConfigResolve t.configToml

/-- Spec source (1): the environment override verbatim when present and
non-empty; otherwise fall through. -/
def get_version_spec (t : TextWorld) : RStr :=
  match t.envVersion with
  | some v => if v = [] then specGitResolve t else v
  | none => specGitResolve t

/-- The byte-level git outcome corresponds to the textual one: same presence
and exit status, and on a successful exit the stdout bytes decode to the
textual stdout. -/
def GitRel : Option (Bool × List Nat) → Option (Bool × RStr) → Prop
  | none, none => True
  | some (true, bs), some (true, s) => utf8Decode bs = some s
  | some (false, _), some (false, _) => True
  | _, _ => False

/-- The byte-level config file corresponds to the textual one: same presence,
and the bytes decode to the textual content. -/
def CfgRel : Option (List Nat) → Option RStr → Prop
  | none, none => True
  | some bs, some s => utf8Decode bs = some s
  | _, _ => False

/-! ## The staging loop of `build_full` (src/xtask/src/main.rs, lines 100-159)

The staging tree is modelled as the set of staged file paths plus the set of
explicitly created directory paths, both relative to `output/staging`, along
with the architectures for which the missing-binary warning was printed.
External subprocess results (`compile_core` exit status) and artifact
presence (`src_bin.exists()`) are inputs.  `dir::copy` of `module/` with
`content_only(true).overwrite(true)` lands every file and directory of the
module tree at the staging root under its module-relative path (overwriting
collisions, which does not change the path set). -/

/-- The `Arch` enum. -/
inductive Arch
  | arm64
  | x86_64
deriving DecidableEq

/-- `Arch::target`: the short user-facing token, used as the staged binary
subdirectory name. -/
def Arch.target : Arch → RStr
  | .arm64 => rstr "arm64-v8a"
  | .x86_64 => rstr "x86_64"

/-- `Arch::android_abi`: the toolchain triple, used to locate the compiler
output path. -/
def Arch.android_abi : Arch → RStr
  | .arm64 => rstr "aarch64-linux-android"
  | .x86_64 => rstr "x86_64-linux-android"

/-- The architectures the build loop iterates over: the selected one, or the
full known set. -/
def archsToBuild : Option Arch → List Arch
  | some selected => [selected]
  | none => [Arch.arm64, Arch.x86_64]

/-- The staging path of an architecture's binary:
`binaries/<token>/meta-hybrid`. -/
def binPath (a : Arch) : RPath := [rstr "binaries", Arch.target a, rstr "meta-hybrid"]

/-- Inputs of one `build_full` staging run. -/
structure BuildInput where
  sel : Option Arch
  compileOk : Arch → Bool
  binPresent : Arch → Bool
  moduleFiles : List RPath
  moduleDirs : List RPath

/-- The staging tree under construction. -/
structure Staging where
  files : List RPath
  dirs : List RPath
  warnings : List Arch
deriving DecidableEq

/-- One iteration of the architecture loop after a successful compile:
`create_dir_all` adds `binaries` and `binaries/<token>`; then the binary is
copied when present, else the warning is recorded. -/
def stageArch (st : Staging) (a : Arch) (present : Bool) : Staging :=
  { files := if present then st.files ++ [binPath a] else st.files
    dirs := st.dirs ++ [[rstr "binaries"], [rstr "binaries", Arch.target a]]
    warnings := if present then st.warnings else st.warnings ++ [a] }

/-- The architecture loop: `compile_core` failure aborts the pipeline
(`anyhow::bail!`); otherwise each architecture is staged in turn. -/
def stageArchsLoop (compileOk binPresent : Arch → Bool) :
    List Arch → Staging → Except Unit Staging
  | [], st => Except.ok st
  | a :: rest, st =>
    if compileOk a then stageArchsLoop compileOk binPresent rest (stageArch st a (binPresent a))
    else Except.error ()

/-- The staging part of `build_full`: run the architecture loop, overlay the
`module/` tree (content-only, overwriting), then delete the staging-root
`.gitignore` if it exists. -/
def build_staging (inp : BuildInput) : Except Unit Staging :=
  match stageArchsLoop inp.compileOk inp.binPresent (archsToBuild inp.sel) ⟨[], [], []⟩ with
  | Except.error e => Except.error e
  | Except.ok st =>
    Except.ok
      { files := (st.files ++ inp.moduleFiles).filter (fun p => decide (p ≠ [rstr ".gitignore"]))
        dirs := st.dirs ++ inp.moduleDirs
        warnings := st.warnings }

/-- Is `p` strictly below directory `d`? -/
def pathUnder : RPath → RPath → Bool
  | [], [] => false
  | [], _ :: _ => true
  | _ :: _, [] => false
  | d :: ds, p :: ps => decide (d = p) && pathUnder ds ps

/-- Does the finalized staging tree hold nothing strictly below `d`? -/
def isEmptyDir (st : Staging) (d : RPath) : Bool :=
  st.files.all (fun f => !pathUnder d f) && st.dirs.all (fun d2 => !pathUnder d d2)

/-- Modelled from the spec: `zip_create_from_directory_with_options`
(`src/xtask/src/zip_ext.rs` is not among the provided sources).  Per §4.4 of
the spec, every regular file under the staging root becomes one archive
entry and every *empty* directory is represented by a directory entry, with
paths relative to the staging root.  `archiveDirEntryFor st d` states that
the produced archive carries a directory entry for `d`. -/
def archiveDirEntryFor (st : Staging) (d : RPath) : Bool :=
  decide (d ∈ st.dirs) && isEmptyDir st d

example :
    build_staging ⟨some Arch.arm64, fun _ => true, fun _ => false,
      [[rstr "module.prop"], [rstr "sub", rstr ".gitignore"]], []⟩ =
    Except.ok
      { files := [[rstr "module.prop"], [rstr "sub", rstr ".gitignore"]]
        dirs := [[rstr "binaries"], [rstr "binaries", rstr "arm64-v8a"]]
        warnings := [Arch.arm64] } := by decide

/-- Did the call succeed? -/
def isOkE : Except Unit RStr → Bool
  | Except.ok _ => true
  | Except.error _ => false

/-! ## Version resolution: proofs -/

/-- The imperative config scan equals "map the extractor over the first line
passing both tests". -/
theorem scanConfigLines_eq_find (ls : List RStr) :
    scanConfigLines ls =
      (ls.find? (fun l => startsWith (rstr "version") (trim l) && (extractQuoted l).isSome)).map
        (fun l => (extractQuoted l).getD [] ++ rstr "-dev") := by
  induction ls with
  | nil => rfl
  | cons l ls ih =>
    by_cases hp : startsWith (rstr "version") (trim l) = true
    · cases hq : extractQuoted l with
      | some v => simp [scanConfigLines, hp, hq, List.find?_cons_of_pos]
      | none => simp [scanConfigLines, hp, hq, List.find?_cons_of_neg, ih]
    · simp [scanConfigLines, hp, List.find?_cons_of_neg, ih]

/-- The config stage agrees with the spec's source (3)/(4) whenever the file
bytes decode. -/
theorem versionFromConfig_eq_spec (bc : Option (List Nat)) (tc : Option RStr)
    (hc : CfgRel bc tc) :
    versionFromConfig bc = Except.ok (specConfigResolve tc) := by
  cases bc with
  | none =>
    cases tc with
    | none => rfl
    | some s => simp [CfgRel] at hc
  | some bs =>
    cases tc with
    | none => simp [CfgRel] at hc
    | some s =>
      simp only [CfgRel] at hc
      simp only [versionFromConfig, hc, specConfigResolve, scanConfigLines_eq_find]
      cases (rustLines s).find?
          (fun l => startsWith (rstr "version") (trim l) && (extractQuoted l).isSome) <;>
        simp

/-- The git stage agrees with the spec's sources (2)-(4) whenever the
consulted byte streams decode. -/
theorem versionFromGit_eq_spec (bg : Option (Bool × List Nat)) (bc : Option (List Nat))
    (tg : Option (Bool × RStr)) (tc : Option RStr)
    (hg : GitRel bg tg) (hc : CfgRel bc tc) :
    versionFromGit bg bc = Except.ok (specGitResolve ⟨none, tg, tc⟩) := by
  cases bg with
  | none =>
    cases tg with
    | none => simpa [versionFromGit, specGitResolve] using versionFromConfig_eq_spec bc tc hc
    | some p => cases p with | mk b s => cases b <;> simp [GitRel] at hg
  | some p =>
    cases p with
    | mk b bs =>
      cases tg with
      | none => cases b <;> simp [GitRel] at hg
      | some q =>
        cases q with
        | mk b' s =>
          cases b <;> cases b' <;> try simp [GitRel] at hg
          · simpa [versionFromGit, specGitResolve] using versionFromConfig_eq_spec bc tc hc
          · simp [versionFromGit, specGitResolve, hg]

/-- C1.  For every process environment and filesystem state (byte-level world
`w`) and its textual reading `t` (same sources, with consulted byte streams
decoded), `get_version` returns exactly the value prescribed by the spec's
strict first-success-wins order: (1) non-empty `META_HYBRID_VERSION`
verbatim, else (2) trimmed stdout of a zero-exit `git describe`, else (3) the
quoted value of the first usable `version` line of `module/config.toml` with
`-dev` appended, else (4) the sentinel `v0.0.0-unknown` — no two sources ever
combined. -/
theorem get_version_follows_resolution_order (w : World) (t : TextWorld)
    (henv : w.envVersion = t.envVersion)
    (hgit : GitRel w.gitDescribe t.gitDescribe)
    (hcfg : CfgRel w.configToml t.configToml) :
    get_version w = Except.ok (get_version_spec t) := by
  have hstage := versionFromGit_eq_spec w.gitDescribe w.configToml
    t.gitDescribe t.configToml hgit hcfg
  have hspec : specGitResolve ⟨none, t.gitDescribe, t.configToml⟩ = specGitResolve t := by
    cases t with | mk e g c => rfl
  rw [hspec] at hstage
  cases henv' : t.envVersion with
  | none => simpa [get_version, henv, henv', get_version_spec] using hstage
  | some v =>
    by_cases hv : v = [] <;>
      simp [get_version, henv, henv', get_version_spec, hv, hstage]

/-- Witness for C1 at a concrete world: the environment override wins. -/
theorem get_version_follows_resolution_order_witness :
    get_version ⟨some (rstr "1.2.3"), none, none⟩ =
      Except.ok (get_version_spec ⟨some (rstr "1.2.3"), none, none⟩) :=
  get_version_follows_resolution_order ⟨some (rstr "1.2.3"), none, none⟩
    ⟨some (rstr "1.2.3"), none, none⟩ rfl trivial trivial

/-- C2, counterexample.  The claim says the resolver can never abort, but
`String::from_utf8(o.stdout)?` does abort it: with `META_HYBRID_VERSION`
unset and `git describe` exiting 0 with the single invalid byte `0xFF` on
stdout, `get_version` returns an error instead of falling through. -/
theorem get_version_aborts_on_invalid_utf8_stdout :
    get_version ⟨none, some (true, [0xFF]), none⟩ = Except.error () := by decide

/-- C2, amended.  Version resolution never returns an error *provided the
byte streams it consults are valid UTF-8*: every failing source (missing or
empty override, failed or non-zero-exit describe query, missing config file,
config file without a usable `version` line) advances to the next source and
at worst the sentinel is returned.  The only aborts are the UTF-8 decoding
failures of `String::from_utf8` / `fs::read_to_string` exhibited by the
counterexample. -/
theorem get_version_total_on_decodable_sources (w : World)
    (hg : ∀ bs, w.gitDescribe = some (true, bs) → (utf8Decode bs).isSome = true)
    (hc : ∀ bs, w.configToml = some bs → (utf8Decode bs).isSome = true) :
    isOkE (get_version w) = true := by
  have hCfg : isOkE (versionFromConfig w.configToml) = true := by
    cases hb : w.configToml with
    | none => rfl
    | some bs =>
      have := hc bs hb
      cases hd : utf8Decode bs with
      | none => rw [hd] at this; simp at this
      | some content =>
        simp only [versionFromConfig, hd]
        cases scanConfigLines (rustLines content) <;> rfl
  have hGit : isOkE (versionFromGit w.gitDescribe w.configToml) = true := by
    cases hgd : w.gitDescribe with
    | none => simpa [versionFromGit] using hCfg
    | some p =>
      cases p with
      | mk b bs =>
        cases b with
        | false => simpa [versionFromGit] using hCfg
        | true =>
          have := hg bs hgd
          cases hd : utf8Decode bs with
          | none => rw [hd] at this; simp at this
          | some s => simp [versionFromGit, hd, isOkE]
  cases he : w.envVersion with
  | none => simpa [get_version, he] using hGit
  | some v =>
    by_cases hv : v = [] <;>
      simp only [get_version, he, hv, if_true, if_false, reduceIte, isOkE]
    exact hGit

/-- Witness for the amended C2 at a concrete world. -/
theorem get_version_total_on_decodable_sources_witness :
    isOkE (get_version ⟨some (rstr "x"), none, none⟩) = true :=
  get_version_total_on_decodable_sources ⟨some (rstr "x"), none, none⟩
    (fun _ h => nomatch h) (fun _ h => nomatch h)

/-! ## Line-splitting lemmas

Round-trip facts about `splitChar`, `joinSep` and `rustLines`, needed to
analyse repeated runs of the manifest patcher. -/

theorem splitChar_of_not_mem (sep : Char) (l : RStr) (h : sep ∉ l) :
    splitChar sep l = [l] := by
  induction l with
  | nil => rfl
  | cons c rest ih =>
    have hc : ¬c = sep := by rintro rfl; exact h (List.mem_cons_self _ _)
    have hr : sep ∉ rest := fun hm => h (List.mem_cons_of_mem _ hm)
    simp only [splitChar, if_neg hc, ih hr]

theorem splitChar_append_sep (sep : Char) (l t : RStr) (h : sep ∉ l) :
    splitChar sep (l ++ sep :: t) = l :: splitChar sep t := by
  induction l with
  | nil => simp [splitChar]
  | cons c rest ih =>
    have hc : ¬c = sep := by rintro rfl; exact h (List.mem_cons_self _ _)
    have hr : sep ∉ rest := fun hm => h (List.mem_cons_of_mem _ hm)
    simp only [List.cons_append, splitChar, if_neg hc, List.append_eq, ih hr]

theorem not_sep_mem_of_mem_splitChar (sep : Char) (s : RStr) :
    ∀ p ∈ splitChar sep s, sep ∉ p := by
  induction s with
  | nil =>
    intro p hp
    have : p = [] := by simpa [splitChar] using hp
    simp [this]
  | cons c rest ih =>
    intro p hp
    by_cases hc : c = sep
    · subst hc
      simp only [splitChar, if_pos rfl] at hp
      rcases List.mem_cons.mp hp with h | h
      · simp [h]
      · exact ih p h
    · simp only [splitChar, if_neg hc] at hp
      cases hrec : splitChar sep rest with
      | nil =>
        rw [hrec] at hp
        have : p = [c] := by simpa using hp
        subst this
        intro hm
        rcases List.mem_singleton.mp hm with h2
        exact hc h2.symm
      | cons p0 ps =>
        rw [hrec] at hp
        rcases List.mem_cons.mp hp with h | h
        · subst h
          intro hm
          rcases List.mem_cons.mp hm with h2 | h2
          · exact hc h2.symm
          · exact ih p0 (by rw [hrec]; exact List.mem_cons_self _ _) h2
        · exact ih p (by rw [hrec]; exact List.mem_cons_of_mem _ h)

theorem splitChar_joinSep (sep : Char) (ls : List RStr) (h0 : ls ≠ [])
    (h : ∀ l ∈ ls, sep ∉ l) : splitChar sep (joinSep sep ls) = ls := by
  induction ls with
  | nil => exact absurd rfl h0
  | cons l ls ih =>
    cases ls with
    | nil => exact splitChar_of_not_mem sep l (h l (List.mem_cons_self _ _))
    | cons l2 ls2 =>
      have hj : joinSep sep (l :: l2 :: ls2) = l ++ sep :: joinSep sep (l2 :: ls2) := rfl
      rw [hj, splitChar_append_sep sep l _ (h l (List.mem_cons_self _ _)),
        ih (by simp) (fun x hx => h x (List.mem_cons_of_mem _ hx))]

theorem stripCR_eq_self (l : RStr) (h : l.getLast? ≠ some '\r') : stripCR l = l := by
  simp [stripCR, h]

theorem processParts_eq_self (ls : List RStr)
    (hr : ∀ l ∈ ls, l.getLast? ≠ some '\r')
    (he : ls.getLast? ≠ some []) : processParts ls = ls := by
  induction ls with
  | nil => rfl
  | cons l ls ih =>
    cases ls with
    | nil =>
      have hne : l ≠ [] := by intro hl; exact he (by simp [hl])
      simp [processParts, hne]
    | cons l2 ls2 =>
      have h1 : stripCR l = l := stripCR_eq_self l (hr l (List.mem_cons_self _ _))
      have h2 := ih (fun x hx => hr x (List.mem_cons_of_mem _ hx))
        (by rw [List.getLast?_cons_cons] at he; exact he)
      simp only [processParts, h1, h2]

/-- Round trip: re-reading joined clean lines gives the lines back.  Clean
means: no line holds `'\n'` or ends in `'\r'`, and the final line is not
empty. -/
theorem rustLines_joinSep (ls : List RStr)
    (hn : ∀ l ∈ ls, '\n' ∉ l)
    (hr : ∀ l ∈ ls, l.getLast? ≠ some '\r')
    (he : ls.getLast? ≠ some []) :
    rustLines (joinSep '\n' ls) = ls := by
  cases ls with
  | nil => rfl
  | cons l ls2 =>
    rw [rustLines, splitChar_joinSep '\n' (l :: ls2) (by simp) hn]
    exact processParts_eq_self _ hr he

theorem mem_of_mem_stripCR (l : RStr) (x : Char) (h : x ∈ stripCR l) : x ∈ l := by
  unfold stripCR at h
  by_cases hc : l.getLast? = some '\r'
  · rw [if_pos hc] at h
    exact List.dropLast_subset _ h
  · rwa [if_neg hc] at h

theorem not_newline_mem_processParts (ps : List RStr) (h : ∀ p ∈ ps, '\n' ∉ p) :
    ∀ l ∈ processParts ps, '\n' ∉ l := by
  induction ps with
  | nil => intro l hl; simp [processParts] at hl
  | cons p ps ih =>
    intro l hl
    cases ps with
    | nil =>
      by_cases hp : p = []
      · simp [processParts, hp] at hl
      · have : l = p := by simpa [processParts, hp] using hl
        subst this
        exact h l (List.mem_cons_self _ _)
    | cons p2 ps2 =>
      simp only [processParts] at hl
      rcases List.mem_cons.mp hl with h1 | h1
      · subst h1
        intro hm
        exact h p (List.mem_cons_self _ _) (mem_of_mem_stripCR p '\n' hm)
      · exact ih (fun x hx => h x (List.mem_cons_of_mem _ hx)) l h1

/-- No line produced by `str::lines` contains a newline. -/
theorem not_newline_mem_rustLines (s : RStr) : ∀ l ∈ rustLines s, '\n' ∉ l :=
  not_newline_mem_processParts _ (not_sep_mem_of_mem_splitChar '\n' s)

theorem getLast?_map_list (f : RStr → RStr) (l : List RStr) :
    (l.map f).getLast? = l.getLast?.map f := by
  induction l with
  | nil => rfl
  | cons a l ih =>
    cases l with
    | nil => rfl
    | cons b l2 => simpa [List.getLast?_cons_cons] using ih

/-! ## `patchLine` lemmas -/

theorem startsWith_append_self (p rest : RStr) : startsWith p (p ++ rest) = true := by
  induction p with
  | nil => rfl
  | cons c p ih => simp [startsWith, ih]

theorem startsWith_version_of_versionCode_append (x : RStr) :
    startsWith (rstr "version=") (rstr "versionCode=" ++ x) = false := rfl

/-- The two recognized key prefixes are mutually exclusive: a line starting
with `versionCode=` does not start with `version=`. -/
theorem startsWith_eq_append (p l : RStr) (h : startsWith p l = true) :
    ∃ t, l = p ++ t := by
  induction p generalizing l with
  | nil => exact ⟨l, rfl⟩
  | cons c p ih =>
    cases l with
    | nil => simp [startsWith] at h
    | cons d l' =>
      simp only [startsWith, Bool.and_eq_true, decide_eq_true_eq] at h
      obtain ⟨t, ht⟩ := ih l' h.2
      exact ⟨t, by rw [h.1, ht]; rfl⟩

theorem not_startsWith_version_of_code (l : RStr)
    (h : startsWith (rstr "versionCode=") l = true) :
    startsWith (rstr "version=") l = false := by
  obtain ⟨t, rfl⟩ := startsWith_eq_append _ _ h
  exact startsWith_version_of_versionCode_append t

/-- Rewriting a manifest line is idempotent. -/
theorem patchLine_idem (v cd l : RStr) :
    patchLine v cd (patchLine v cd l) = patchLine v cd l := by
  by_cases h1 : startsWith (rstr "version=") l = true
  · simp only [patchLine, h1, if_true, reduceIte, startsWith_append_self]
  · by_cases h2 : startsWith (rstr "versionCode=") l = true
    · simp only [patchLine, h1, h2, Bool.false_eq_true, if_false, if_true, reduceIte,
        startsWith_version_of_versionCode_append, startsWith_append_self]
    · simp only [patchLine, h1, h2, Bool.false_eq_true, if_false]

theorem rstr_version_append_ne_nil (v : RStr) : rstr "version=" ++ v ≠ [] := by
  have h : rstr "version=" ++ v = 'v' :: (rstr "ersion=" ++ v) := rfl
  rw [h]; simp

theorem rstr_versionCode_append_ne_nil (v : RStr) : rstr "versionCode=" ++ v ≠ [] := by
  have h : rstr "versionCode=" ++ v = 'v' :: (rstr "ersionCode=" ++ v) := rfl
  rw [h]; simp

theorem patchLine_ne_nil (v cd l : RStr) (h : l ≠ []) : patchLine v cd l ≠ [] := by
  unfold patchLine
  by_cases h1 : startsWith (rstr "version=") l = true
  · rw [if_pos h1]; exact rstr_version_append_ne_nil v
  · by_cases h2 : startsWith (rstr "versionCode=") l = true
    · rw [if_neg h1, if_pos h2]; exact rstr_versionCode_append_ne_nil cd
    · rw [if_neg h1, if_neg h2]; exact h

/-- A "clean" injected value: no embedded newline, no trailing carriage
return. -/
def CleanVal (s : RStr) : Prop := '\n' ∉ s ∧ s.getLast? ≠ some '\r'

theorem clean_append_key (key v : RStr) (hkey : CleanVal key)
    (hv : CleanVal v) : CleanVal (key ++ v) := by
  constructor
  · intro hm
    rcases List.mem_append.mp hm with h | h
    · exact hkey.1 h
    · exact hv.1 h
  · cases hveq : v with
    | nil => simpa [hveq] using hkey.2
    | cons a t =>
      rw [List.getLast?_append_of_ne_nil _ (by simp)]
      rw [hveq] at hv
      exact hv.2

theorem patchLine_clean (v cd l : RStr) (hv : CleanVal v) (hcd : CleanVal cd)
    (hl : CleanVal l) : CleanVal (patchLine v cd l) := by
  unfold patchLine
  by_cases h1 : startsWith (rstr "version=") l = true
  · simpa [h1] using clean_append_key (rstr "version=") v ⟨by decide, by decide⟩ hv
  · by_cases h2 : startsWith (rstr "versionCode=") l = true
    · simpa [h1, h2] using clean_append_key (rstr "versionCode=") cd ⟨by decide, by decide⟩ hcd
    · simpa [h1, h2] using hl

/-! ## Digit-formatting lemmas -/

theorem digitChar_isDigit (d : Nat) (h : d < 10) : (digitChar d).isDigit = true := by
  interval_cases d <;> decide

theorem natDigitsAux_all_digit (fuel : Nat) :
    ∀ n, ∀ c ∈ natDigitsAux fuel n, c.isDigit = true := by
  induction fuel with
  | zero => intro n c hc; cases n <;> simp [natDigitsAux] at hc
  | succ fuel ih =>
    intro n c hc
    cases n with
    | zero => simp [natDigitsAux] at hc
    | succ m =>
      simp only [natDigitsAux, List.mem_append, List.mem_singleton] at hc
      rcases hc with h | h
      · exact ih _ c h
      · rw [h]; exact digitChar_isDigit _ (Nat.mod_lt _ (by norm_num))

theorem natToRStr_all_digit (n : Nat) : ∀ c ∈ natToRStr n, c.isDigit = true := by
  intro c hc
  unfold natToRStr at hc
  by_cases h : n = 0
  · rw [if_pos h] at hc
    have : c = '0' := by simpa using hc
    rw [this]; decide
  · rw [if_neg h] at hc
    exact natDigitsAux_all_digit n n c hc

/-- The decimal rendering of a number is a clean value. -/
theorem natToRStr_clean (n : Nat) : CleanVal (natToRStr n) := by
  constructor
  · intro hm
    have := natToRStr_all_digit n '\n' hm
    simp at this
  · intro hlast
    have hmem : '\r' ∈ natToRStr n := by
      obtain ⟨hne, heq⟩ := List.mem_getLast?_eq_getLast (Option.mem_def.mpr hlast)
      rw [heq]
      exact List.getLast_mem hne
    have := natToRStr_all_digit n '\r' hmem
    simp at this

/-- The injected `versionCode` value is clean whenever a present environment
override is clean (the hash-derived value is all digits, hence clean). -/
theorem versionCodeOf_clean (envCode : Option RStr) (v : RStr)
    (hec : ∀ ec, envCode = some ec → CleanVal ec) : CleanVal (versionCodeOf envCode v) := by
  cases envCode with
  | none => exact natToRStr_clean _
  | some ec => exact hec ec rfl

/-- Re-parsing the patched manifest gives exactly the per-line image of the
input lines, provided the input lines are CR-clean with a non-empty final
line and the injected values are clean. -/
theorem rustLines_patch (envCode : Option RStr) (v c : RStr)
    (hlr : ∀ l ∈ rustLines c, l.getLast? ≠ some '\r')
    (hle : (rustLines c).getLast? ≠ some [])
    (hv : CleanVal v)
    (hec : ∀ ec, envCode = some ec → CleanVal ec) :
    rustLines (update_module_prop_content envCode v c) =
      (rustLines c).map (patchLine v (versionCodeOf envCode v)) := by
  have hcd := versionCodeOf_clean envCode v hec
  show rustLines (joinSep '\n' ((rustLines c).map (patchLine v (versionCodeOf envCode v)))) = _
  apply rustLines_joinSep
  · intro l' hl'
    obtain ⟨l, hl, rfl⟩ := List.mem_map.mp hl'
    exact (patchLine_clean v _ l hv hcd ⟨not_newline_mem_rustLines c l hl, hlr l hl⟩).1
  · intro l' hl'
    obtain ⟨l, hl, rfl⟩ := List.mem_map.mp hl'
    exact (patchLine_clean v _ l hv hcd ⟨not_newline_mem_rustLines c l hl, hlr l hl⟩).2
  · rw [getLast?_map_list]
    intro hbad
    cases hx : (rustLines c).getLast? with
    | none => rw [hx] at hbad; simp at hbad
    | some x =>
      rw [hx] at hbad
      have hfx : patchLine v (versionCodeOf envCode v) x = [] := by
        simpa using hbad
      have hxne : x ≠ [] := fun hxeq => hle (by rw [hx, hxeq])
      exact patchLine_ne_nil v _ x hxne hfx

/-- C5, counterexample.  Patching is *not* idempotent for every manifest
content: the content `"a\n\n"` has lines `["a", ""]`, is written back as
`"a\n"`, whose lines are just `["a"]`, so a second patch writes `"a"`. -/
theorem patch_twice_differs_on_trailing_blank_line :
    update_module_prop_content (some (rstr "7")) (rstr "1.0")
        (update_module_prop_content (some (rstr "7")) (rstr "1.0") (rstr "a\n\n")) ≠
      update_module_prop_content (some (rstr "7")) (rstr "1.0") (rstr "a\n\n") := by
  decide

/-- C5, amended.  The manifest patch is idempotent for every manifest content
whose parsed lines do not end in a carriage return and whose final parsed
line is non-empty, and every version string / code override containing no
newline and not ending in a carriage return (the hash-derived code is always
clean).  The counterexample's trailing blank line is exactly what the
original claim must exclude. -/
theorem patch_idempotent_on_clean_input (envCode : Option RStr) (v c : RStr)
    (hlr : ∀ l ∈ rustLines c, l.getLast? ≠ some '\r')
    (hle : (rustLines c).getLast? ≠ some [])
    (hv : CleanVal v)
    (hec : ∀ ec, envCode = some ec → CleanVal ec) :
    update_module_prop_content envCode v (update_module_prop_content envCode v c) =
      update_module_prop_content envCode v c := by
  have h := rustLines_patch envCode v c hlr hle hv hec
  show joinSep '\n' ((rustLines (update_module_prop_content envCode v c)).map
      (patchLine v (versionCodeOf envCode v))) = _
  rw [h, List.map_map]
  have hff : patchLine v (versionCodeOf envCode v) ∘ patchLine v (versionCodeOf envCode v) =
      patchLine v (versionCodeOf envCode v) :=
    funext (patchLine_idem v (versionCodeOf envCode v))
  rw [hff]
  rfl

/-- Witness for the amended C5 at a concrete manifest. -/
theorem patch_idempotent_on_clean_input_witness :
    update_module_prop_content (some (rstr "42")) (rstr "1.2.3")
        (update_module_prop_content (some (rstr "42")) (rstr "1.2.3")
          (rstr "id=x\nversion=v0\nversionCode=1\n# note")) =
      update_module_prop_content (some (rstr "42")) (rstr "1.2.3")
        (rstr "id=x\nversion=v0\nversionCode=1\n# note") :=
  patch_idempotent_on_clean_input (some (rstr "42")) (rstr "1.2.3")
    (rstr "id=x\nversion=v0\nversionCode=1\n# note")
    (by decide) (by decide) ⟨by decide, by decide⟩
    (fun _ h => by cases h; exact ⟨by decide, by decide⟩)

/-- C6, counterexample.  The patched output does not always have the same
number of lines as the input: `"a\n\n"` has two lines, its patched output
`"a\n"` has one. -/
theorem patch_changes_line_count_on_trailing_blank_line :
    (rustLines (update_module_prop_content (some (rstr "7")) (rstr "1.0")
        (rstr "a\n\n"))).length ≠
      (rustLines (rstr "a\n\n")).length := by decide

/-- C6, amended.  For manifests whose parsed lines are CR-clean with a
non-empty final line (and clean injected values), the patched output parses
to exactly one line per input line in order: the line at each position is the
`patchLine` image of the input line at that position — unchanged whenever it
starts with neither `version=` nor `versionCode=`, and replaced wholesale
with the freshly formatted key=value line otherwise — so the line count is
preserved.  The counterexample's trailing blank line must be excluded. -/
theorem patch_preserves_lines_on_clean_input (envCode : Option RStr) (v c : RStr)
    (hlr : ∀ l ∈ rustLines c, l.getLast? ≠ some '\r')
    (hle : (rustLines c).getLast? ≠ some [])
    (hv : CleanVal v)
    (hec : ∀ ec, envCode = some ec → CleanVal ec) :
    rustLines (update_module_prop_content envCode v c) =
        (rustLines c).map (patchLine v (versionCodeOf envCode v)) ∧
      (rustLines (update_module_prop_content envCode v c)).length =
        (rustLines c).length := by
  have h := rustLines_patch envCode v c hlr hle hv hec
  exact ⟨h, by rw [h, List.length_map]⟩

/-- Witness for the amended C6 at a concrete manifest. -/
theorem patch_preserves_lines_on_clean_input_witness :
    rustLines (update_module_prop_content none (rstr "2.0") (rstr "version=a\nx=y")) =
        (rustLines (rstr "version=a\nx=y")).map
          (patchLine (rstr "2.0") (versionCodeOf none (rstr "2.0"))) ∧
      (rustLines (update_module_prop_content none (rstr "2.0") (rstr "version=a\nx=y"))).length =
        (rustLines (rstr "version=a\nx=y")).length :=
  patch_preserves_lines_on_clean_input none (rstr "2.0") (rstr "version=a\nx=y")
    (by decide) (by decide) ⟨by decide, by decide⟩ (fun _ h => nomatch h)

/-- C4.  With no `META_HYBRID_CODE` override, the `versionCode=` line written
into the manifest carries exactly `DefaultHasher(version) % 100000` (SipHash-1-3,
zero keys, over the version's UTF-8 bytes plus the `0xFF` terminator) rendered
in decimal; the reduced value is always strictly below `100000` and the
rendering is all ASCII digits (an unsigned integer).  Determinism — the same
version string always yielding the same code — is immediate, as
`defaultHashStr` is a function of the version string alone. -/
theorem version_code_hash_derivation (v line : RStr)
    (h : startsWith (rstr "versionCode=") line = true) :
    patchLine v (versionCodeOf none v) line =
        rstr "versionCode=" ++ natToRStr (defaultHashStr v % 100000) ∧
      defaultHashStr v % 100000 < 100000 ∧
      (natToRStr (defaultHashStr v % 100000)).all (fun c => c.isDigit) = true := by
  refine ⟨?_, Nat.mod_lt _ (by norm_num), ?_⟩
  · have hfalse := not_startsWith_version_of_code line h
    simp only [patchLine, hfalse, Bool.false_eq_true, if_false, h, if_true, reduceIte]
    rfl
  · rw [List.all_eq_true]
    intro c hc
    simpa using natToRStr_all_digit _ c hc

/-- Witness for C4 at a concrete version string and manifest line. -/
theorem version_code_hash_derivation_witness :
    patchLine (rstr "1.0") (versionCodeOf none (rstr "1.0")) (rstr "versionCode=1") =
        rstr "versionCode=" ++ natToRStr (defaultHashStr (rstr "1.0") % 100000) ∧
      defaultHashStr (rstr "1.0") % 100000 < 100000 ∧
      (natToRStr (defaultHashStr (rstr "1.0") % 100000)).all (fun c => c.isDigit) = true :=
  version_code_hash_derivation (rstr "1.0") (rstr "versionCode=1") (by decide)

/-- C8.  Invoking the manifest patch on a non-existent path returns success
without touching the filesystem: the result is `ok` and the file state stays
`none` (no file is created), for every environment and version string. -/
theorem patch_missing_manifest_noop (envCode : Option RStr) (v : RStr) :
    update_module_prop envCode v none = Except.ok none := rfl

/-- C9.  When `META_HYBRID_CODE` is set, its value is used verbatim with no
validation at all: for every value (empty or non-numeric included) the
`versionCode=` line becomes `versionCode=` followed by exactly that value. -/
theorem env_code_used_verbatim (ec v line : RStr)
    (h : startsWith (rstr "versionCode=") line = true) :
    versionCodeOf (some ec) v = ec ∧
      patchLine v (versionCodeOf (some ec) v) line = rstr "versionCode=" ++ ec := by
  refine ⟨rfl, ?_⟩
  have hfalse := not_startsWith_version_of_code line h
  simp only [patchLine, hfalse, Bool.false_eq_true, if_false, h, if_true, reduceIte]
  rfl

/-! ## Staging-loop lemmas -/

/-- The directories created by `create_dir_all` over a run of the
architecture loop. -/
def archDirs : List Arch → List RPath
  | [] => []
  | a :: as => [rstr "binaries"] :: [rstr "binaries", Arch.target a] :: archDirs as

theorem mem_archDirs_of_mem (a : Arch) (as : List Arch) (h : a ∈ as) :
    [rstr "binaries", Arch.target a] ∈ archDirs as := by
  induction as with
  | nil => simp at h
  | cons b as ih =>
    rcases List.mem_cons.mp h with h1 | h1
    · subst h1; simp [archDirs]
    · simp [archDirs, ih h1]

theorem mem_archDirs_elim (d : RPath) (as : List Arch) (h : d ∈ archDirs as) :
    d = [rstr "binaries"] ∨ ∃ b ∈ as, d = [rstr "binaries", Arch.target b] := by
  induction as with
  | nil => simp [archDirs] at h
  | cons b as ih =>
    simp only [archDirs] at h
    rcases List.mem_cons.mp h with h1 | h1
    · exact Or.inl h1
    · rcases List.mem_cons.mp h1 with h2 | h2
      · exact Or.inr ⟨b, List.mem_cons_self _ _, h2⟩
      · rcases ih h2 with h3 | ⟨x, hx, h3⟩
        · exact Or.inl h3
        · exact Or.inr ⟨x, List.mem_cons_of_mem _ hx, h3⟩

/-- Characterization of a fully successful run of the architecture loop:
the binary of every present architecture is staged in order, both directory
levels are created for every architecture, and exactly the absent
architectures are warned about. -/
theorem stageArchsLoop_ok (cOk bP : Arch → Bool) (as : List Arch) (st : Staging)
    (h : ∀ b ∈ as, cOk b = true) :
    stageArchsLoop cOk bP as st = Except.ok
      { files := st.files ++ (as.filter bP).map binPath
        dirs := st.dirs ++ archDirs as
        warnings := st.warnings ++ as.filter (fun b => !bP b) } := by
  induction as generalizing st with
  | nil => simp [stageArchsLoop, archDirs]
  | cons a as ih =>
    have ha : cOk a = true := h a (List.mem_cons_self _ _)
    rw [stageArchsLoop, if_pos ha, ih _ (fun b hb => h b (List.mem_cons_of_mem _ hb))]
    by_cases hb : bP a = true
    · simp [stageArch, hb, archDirs, List.filter_cons]
    · simp only [Bool.not_eq_true] at hb
      simp [stageArch, hb, archDirs, List.filter_cons]

theorem binPath_inj (a b : Arch) (h : binPath a = binPath b) : a = b := by
  revert h
  cases a <;> cases b <;> decide

theorem pathUnder_binPath (x b : Arch)
    (h : pathUnder [rstr "binaries", Arch.target x] (binPath b) = true) : x = b := by
  revert h
  cases x <;> cases b <;> decide

theorem pathUnder_binaries_root (a : Arch) :
    pathUnder [rstr "binaries", Arch.target a] [rstr "binaries"] = false := by
  cases a <;> decide

theorem pathUnder_sibling (a b : Arch) :
    pathUnder [rstr "binaries", Arch.target a] [rstr "binaries", Arch.target b] = false := by
  cases a <;> cases b <;> decide

/-! ## Staging claims -/

/-- C3, counterexample.  A `.gitignore` nested below the staging root
survives staging: the cleanup removes only `stage_dir.join(".gitignore")`,
so with `module/sub/.gitignore` in the scripts/metadata source the finalized
tree still holds a file whose name is the exclusion marker. -/
theorem staging_keeps_nested_gitignore :
    (build_staging ⟨some Arch.arm64, fun _ => true, fun _ => true,
        [[rstr "sub", rstr ".gitignore"]], []⟩).map
      (fun st => st.files.any (fun p => decide (p.getLast? = some (rstr ".gitignore")))) =
      Except.ok true := by decide

/-- C3, amended.  After staging completes, the finalized tree never holds an
exclusion-marker file *at the staging root*: the post-copy cleanup deletes
`.gitignore` there unconditionally, for every build input.  (Nested
exclusion-marker files, as the counterexample shows, are retained.) -/
theorem staging_no_root_gitignore (inp : BuildInput) :
    (build_staging inp).map (fun st => decide ([rstr ".gitignore"] ∈ st.files)) ≠
      Except.ok true := by
  unfold build_staging
  cases hres : stageArchsLoop inp.compileOk inp.binPresent (archsToBuild inp.sel) ⟨[], [], []⟩ with
  | error e => simp [Except.map]
  | ok st =>
    simp only [Except.map]
    intro hbad
    injection hbad with hbad2
    have hmem := of_decide_eq_true hbad2
    have := (List.mem_filter.mp hmem).2
    simp at this

/-- C7.  If every selected architecture compiles but architecture `a`'s
binary is absent from its expected output path, staging still succeeds: the
run completes with a warning recorded for `a`, and the finalized tree (hence
the archive, which packages exactly the staged files) carries no
`binaries/<token>/meta-hybrid` payload for `a` (provided the scripts/metadata
overlay does not itself ship that path). -/
theorem missing_binary_warns_and_continues (inp : BuildInput) (a : Arch)
    (ha : a ∈ archsToBuild inp.sel)
    (hcomp : ∀ b ∈ archsToBuild inp.sel, inp.compileOk b = true)
    (hmiss : inp.binPresent a = false)
    (hmod : binPath a ∉ inp.moduleFiles) :
    (build_staging inp).map
      (fun st => decide (a ∈ st.warnings) && decide (binPath a ∉ st.files)) =
      Except.ok true := by
  unfold build_staging
  rw [stageArchsLoop_ok _ _ _ _ hcomp]
  simp only [Except.map, Except.ok.injEq, Bool.and_eq_true, decide_eq_true_eq]
  constructor
  · exact List.mem_filter.mpr ⟨ha, by simp [hmiss]⟩
  · intro hmem
    have hmem2 := (List.mem_filter.mp hmem).1
    rcases List.mem_append.mp hmem2 with h1 | h1
    · simp only [List.nil_append] at h1
      obtain ⟨b, hbmem, hbeq⟩ := List.mem_map.mp h1
      obtain rfl := binPath_inj b a hbeq
      have := (List.mem_filter.mp hbmem).2
      rw [hmiss] at this
      exact absurd this (by simp)
    · exact hmod h1

/-- Witness for C7: one selected architecture, compiling fine, binary
absent. -/
theorem missing_binary_warns_and_continues_witness :
    (build_staging ⟨some Arch.arm64, fun _ => true, fun _ => false,
        [[rstr "module.prop"]], []⟩).map
      (fun st => decide (Arch.arm64 ∈ st.warnings) &&
        decide (binPath Arch.arm64 ∉ st.files)) =
      Except.ok true :=
  missing_binary_warns_and_continues
    ⟨some Arch.arm64, fun _ => true, fun _ => false, [[rstr "module.prop"]], []⟩
    Arch.arm64 (by decide) (by decide) rfl (by decide)

/-- C10.  `binaries/<token>` is created by `create_dir_all` *before* the
binary-existence check, so with `a` selected, all compiles succeeding and
`a`'s binary absent, the finalized staging tree still holds the directory
`binaries/<token>`, holds nothing beneath it (provided the scripts/metadata
overlay puts nothing there), and the archive therefore carries a directory
entry for it (archive modelling per spec §4.4, as `zip_ext.rs` is not among
the sources). -/
theorem missing_arch_dir_archived (inp : BuildInput) (a : Arch)
    (ha : a ∈ archsToBuild inp.sel)
    (hcomp : ∀ b ∈ archsToBuild inp.sel, inp.compileOk b = true)
    (hmiss : inp.binPresent a = false)
    (hmf : inp.moduleFiles.all
      (fun p => !pathUnder [rstr "binaries", Arch.target a] p) = true)
    (hmd : inp.moduleDirs.all
      (fun p => !pathUnder [rstr "binaries", Arch.target a] p) = true) :
    (build_staging inp).map
      (fun st => archiveDirEntryFor st [rstr "binaries", Arch.target a]) =
      Except.ok true := by
  unfold build_staging
  rw [stageArchsLoop_ok _ _ _ _ hcomp]
  simp only [Except.map, Except.ok.injEq, archiveDirEntryFor, isEmptyDir,
    Bool.and_eq_true, decide_eq_true_eq, List.all_eq_true]
  refine ⟨?_, ?_, ?_⟩
  · exact List.mem_append.mpr (Or.inl (List.mem_append.mpr
      (Or.inr (mem_archDirs_of_mem a _ ha))))
  · intro f hf
    have hf2 := (List.mem_filter.mp hf).1
    rcases List.mem_append.mp hf2 with h1 | h1
    · simp only [List.nil_append] at h1
      obtain ⟨b, hbmem, hbeq⟩ := List.mem_map.mp h1
      subst hbeq
      cases hpu : pathUnder [rstr "binaries", Arch.target a] (binPath b) with
      | false => rfl
      | true =>
        obtain rfl := pathUnder_binPath a b hpu
        have := (List.mem_filter.mp hbmem).2
        rw [hmiss] at this
        exact absurd this (by simp)
    · rw [List.all_eq_true] at hmf
      exact hmf f h1
  · intro d hd
    rcases List.mem_append.mp hd with h1 | h1
    · simp only [List.nil_append] at h1
      rcases mem_archDirs_elim d _ h1 with h2 | ⟨b, _, h2⟩
      · subst h2; simp [pathUnder_binaries_root]
      · subst h2; simp [pathUnder_sibling]
    · rw [List.all_eq_true] at hmd
      exact hmd d h1

/-- Witness for C10: one selected architecture with a missing binary leaves
an archived empty directory entry. -/
theorem missing_arch_dir_archived_witness :
    (build_staging ⟨some Arch.arm64, fun _ => true, fun _ => false,
        [[rstr "module.prop"]], []⟩).map
      (fun st => archiveDirEntryFor st [rstr "binaries", Arch.target Arch.arm64]) =
      Except.ok true :=
  missing_arch_dir_archived
    ⟨some Arch.arm64, fun _ => true, fun _ => false, [[rstr "module.prop"]], []⟩
    Arch.arm64 (by decide) (by decide) rfl (by decide) (by decide)

/-- Witness for C9 with an empty-looking, non-numeric override value. -/
theorem env_code_used_verbatim_witness :
    versionCodeOf (some (rstr "abc!")) (rstr "x") = rstr "abc!" ∧
      patchLine (rstr "x") (versionCodeOf (some (rstr "abc!")) (rstr "x"))
          (rstr "versionCode=7") =
        rstr "versionCode=" ++ rstr "abc!" :=
  env_code_used_verbatim (rstr "abc!") (rstr "x") (rstr "versionCode=7") (by decide)

